import Mathlib

/-!
Shallow embedding of the TagInput component
(src/src/components/ui/tag-input.tsx).

Strings are modelled as lists of characters.  The JavaScript regular
expression class \s is modelled by the ASCII whitespace characters
(space, tab, line feed, carriage return, vertical tab, form feed);
the claims only ever exercise these.

The component state at a given render consists of:
  * tags             (the useState tags array, the TagList),
  * inputText        (the useState inputText, the InputBuffer),
  * deletionIsPending (the useState deletionIsPending flag).

Each event handler is modelled as a pure function from the state (and
the event payload) to the new state together with the value passed to
props.onValueChange, if any.  React's setState calls inside one handler
all act on the same captured render state, so sequential substitution is
the faithful semantics.
-/

/-- Strings as lists of characters. -/
abbrev Str := List Char

/-- The ASCII part of the JavaScript whitespace class \s. -/
def isSpaceChar (c : Char) : Bool :=
  c == ' ' || c == '\t' || c == '\n' || c == '\r' || c == '\x0b' || c == '\x0c'

/-- A delimiter character of the tag parser: comma, semicolon or
whitespace, exactly the character class [\s,;] of the source regex. -/
def isDelim (c : Char) : Bool :=
  c == ',' || c == ';' || isSpaceChar c

/-- JavaScript String.prototype.trim: strip leading and trailing
whitespace. -/
def jsTrim (l : Str) : Str :=
  ((l.dropWhile isSpaceChar).reverse.dropWhile isSpaceChar).reverse

/-- First-occurrence deduplication relative to a set of already seen
elements.  jsSetDedup below instantiates it with an empty seen set;
this models the JavaScript idiom spread-of-new-Set, which iterates the
array in order and keeps the first occurrence of each value. -/
def dedupSeen (seen : List Str) : List Str → List Str
  | [] => []
  | x :: xs => if x ∈ seen then dedupSeen seen xs else x :: dedupSeen (x :: seen) xs

/-- The JavaScript expression spread-of-new-Set: keep the first
occurrence of every element, preserving order. -/
def jsSetDedup (l : List Str) : List Str :=
  dedupSeen [] l

/-- The render state of the TagInput component. -/
structure TagState where
  tags : List Str
  inputText : Str
  deletionIsPending : Bool

/-- Operational reading of
text.replaceAll with the global regex capturing [^\s,;]+ followed by
one of comma, semicolon or whitespace, where the callback pushes the
trimmed capture and replaces the match by the empty string.

The regex engine scans left to right.  A match is a maximal run of
non-delimiter characters followed by a single delimiter; a delimiter
that is not immediately preceded by a non-delimiter character cannot
belong to any match and survives into the result, as does a trailing
run of non-delimiter characters that reaches the end of the input.
The accumulator acc holds the current run, reversed.

Returns (pushed tags in order, residual text). -/
def scanText : List Char → List Char → List Str × Str
  | acc, [] => ([], acc.reverse)
  | acc, c :: rest =>
    if isDelim c then
      if acc = [] then
        let p := scanText [] rest
        (p.1, c :: p.2)
      else
        let p := scanText [] rest
        (jsTrim acc.reverse :: p.1, p.2)
    else
      scanText (c :: acc) rest

/-- handleInputChange: parse the full new field content, append the
captured tags, deduplicate keeping first occurrences, clear the
pending-deletion flag, store the residual text as the new InputBuffer,
and notify the host with the new tag list (the handler always calls
props.onValueChange). -/
def handleInputChange (s : TagState) (text : Str) : TagState × List Str :=
  let p := scanText [] text
  let newValue := jsSetDedup (s.tags ++ p.1)
  (⟨newValue, p.2, false⟩, newValue)

/-- handleKeyDown: the key is the KeyboardEvent key string; the buffer
text read from e.currentTarget.value is the current inputText.  The
Enter branch adds the trimmed buffer when the raw buffer is non-empty
and the trimmed buffer is not already present; the Backspace branch
with an empty buffer implements the two-phase delete.  The second pair
component is the value passed to props.onValueChange, if the handler
calls it. -/
def handleKeyDown (s : TagState) (key : String) : TagState × Option (List Str) :=
  let text := s.inputText
  if key = ("Enter") then
    if text ≠ [] ∧ jsTrim text ∉ s.tags then
      let newValue := jsSetDedup (s.tags ++ [jsTrim text])
      (⟨newValue, [], s.deletionIsPending⟩, some newValue)
    else
      (s, none)
  else if key = ("Backspace") ∧ text = [] then
    if s.deletionIsPending then
      (⟨s.tags.dropLast, s.inputText, false⟩, some s.tags.dropLast)
    else
      (⟨s.tags, s.inputText, true⟩, none)
  else
    (s, none)

/-- The onDelete closure of a rendered tag: remove every entry equal to
the clicked tag and notify the host with the filtered list. -/
def removeTag (s : TagState) (target : Str) : TagState × List Str :=
  let newValue := s.tags.filter (fun t => decide (t ≠ target))
  (⟨newValue, s.inputText, s.deletionIsPending⟩, newValue)

/-- The per-tag rendering flag: the tag at index i is highlighted for
deletion when it is the last tag and a deletion is pending. -/
def isUpForDeletion (s : TagState) (i : Nat) : Bool :=
  (i == s.tags.length - 1) && s.deletionIsPending

/-- Run a sequence of handleTextChange events, keeping only the state. -/
def runTexts (s : TagState) (texts : List Str) : TagState :=
  texts.foldl (fun st t => (handleInputChange st t).1) s

/-- All tags captured by a sequence of handleTextChange payloads, in
order. -/
def allTokens (texts : List Str) : List Str :=
  (texts.map (fun t => (scanText [] t).1)).flatten

/-- The buffer shape the parser actually guarantees: a (possibly empty)
run of delimiter characters followed by delimiter-free text. -/
def delimsThenPlain (l : Str) : Bool :=
  (l.dropWhile isDelim).all (fun c => !isDelim c)

/-- The buffer shape asserted by the specification: once a delimiter
occurs, only delimiter characters follow. -/
def plainThenDelims (l : Str) : Bool :=
  (l.dropWhile (fun c => !isDelim c)).all isDelim

/-- Number of occurrences of a value in a tag list. -/
def countOcc (x : Str) (l : List Str) : Nat :=
  (l.filter (fun y => decide (y = x))).length

/-! ### Library lemmas about the deduplication helper -/

theorem mem_dedupSeen (x : Str) :
    ∀ (l seen : List Str), x ∈ dedupSeen seen l ↔ x ∈ l ∧ x ∉ seen := by
  intro l
  induction l with
  | nil => intro seen; simp [dedupSeen]
  | cons y ys ih =>
    intro seen
    by_cases hy : y ∈ seen
    · simp only [dedupSeen, if_pos hy, ih, List.mem_cons]
      constructor
      · rintro ⟨h1, h2⟩; exact ⟨Or.inr h1, h2⟩
      · rintro ⟨h1 | h1, h2⟩
        · exact absurd (h1 ▸ hy) h2
        · exact ⟨h1, h2⟩
    · simp only [dedupSeen, if_neg hy, List.mem_cons, ih]
      constructor
      · rintro (rfl | ⟨h1, h2⟩)
        · exact ⟨Or.inl rfl, hy⟩
        · exact ⟨Or.inr h1, fun hs => h2 (Or.inr hs)⟩
      · rintro ⟨rfl | h1, h2⟩
        · exact Or.inl rfl
        · by_cases hxy : x = y
          · exact Or.inl hxy
          · exact Or.inr ⟨h1, fun hs => by
              rcases hs with h | h
              · exact hxy h
              · exact h2 h⟩

theorem nodup_dedupSeen : ∀ (l seen : List Str), (dedupSeen seen l).Nodup := by
  intro l
  induction l with
  | nil => intro seen; simp [dedupSeen]
  | cons y ys ih =>
    intro seen
    by_cases hy : y ∈ seen
    · simpa [dedupSeen, if_pos hy] using ih seen
    · simp only [dedupSeen, if_neg hy, List.nodup_cons]
      refine ⟨fun hmem => ?_, ih (y :: seen)⟩
      exact ((mem_dedupSeen y ys (y :: seen)).mp hmem).2 (List.mem_cons_self y seen)

theorem dedupSeen_congr :
    ∀ (l s₁ s₂ : List Str), (∀ x, x ∈ s₁ ↔ x ∈ s₂) → dedupSeen s₁ l = dedupSeen s₂ l := by
  intro l
  induction l with
  | nil => intro s₁ s₂ _; rfl
  | cons y ys ih =>
    intro s₁ s₂ h
    by_cases hy : y ∈ s₁
    · rw [dedupSeen, dedupSeen, if_pos hy, if_pos ((h y).mp hy)]
      exact ih s₁ s₂ h
    · rw [dedupSeen, dedupSeen, if_neg hy, if_neg (fun hc => hy ((h y).mpr hc))]
      refine congrArg (y :: ·) (ih (y :: s₁) (y :: s₂) fun x => ?_)
      simp only [List.mem_cons]
      exact or_congr Iff.rfl (h x)

theorem dedupSeen_eq_self :
    ∀ (l seen : List Str), l.Nodup → (∀ x ∈ l, x ∉ seen) → dedupSeen seen l = l := by
  intro l
  induction l with
  | nil => intro seen _ _; rfl
  | cons y ys ih =>
    intro seen hnd hdisj
    rw [dedupSeen, if_neg (hdisj y (List.mem_cons_self y ys))]
    refine congrArg (y :: ·) (ih (y :: seen) (List.nodup_cons.mp hnd).2 ?_)
    intro x hx
    simp only [List.mem_cons]
    rintro (rfl | hs)
    · exact (List.nodup_cons.mp hnd).1 hx
    · exact hdisj x (List.mem_cons_of_mem _ hx) hs

theorem dedupSeen_append :
    ∀ (l m seen : List Str),
      dedupSeen seen (l ++ m) = dedupSeen seen l ++ dedupSeen (l ++ seen) m := by
  intro l
  induction l with
  | nil => intro m seen; simp [dedupSeen]
  | cons y ys ih =>
    intro m seen
    by_cases hy : y ∈ seen
    · rw [List.cons_append, dedupSeen, if_pos hy, dedupSeen, if_pos hy, ih]
      refine congrArg (dedupSeen seen ys ++ ·) (dedupSeen_congr m _ _ fun x => ?_)
      simp only [List.cons_append, List.mem_cons, List.mem_append]
      constructor
      · rintro (h | h) <;> tauto
      · rintro (rfl | h | h) <;> tauto
    · rw [List.cons_append, dedupSeen, if_neg hy, dedupSeen, if_neg hy, ih,
        List.cons_append]
      refine congrArg (y :: ·) (congrArg (dedupSeen (y :: seen) ys ++ ·)
        (dedupSeen_congr m _ _ fun x => ?_))
      simp only [List.cons_append, List.mem_cons, List.mem_append]
      tauto

theorem jsSetDedup_nodup (l : List Str) : (jsSetDedup l).Nodup :=
  nodup_dedupSeen l []

theorem mem_jsSetDedup (x : Str) (l : List Str) : x ∈ jsSetDedup l ↔ x ∈ l := by
  rw [jsSetDedup, mem_dedupSeen]
  simp

theorem jsSetDedup_eq_self (l : List Str) (h : l.Nodup) : jsSetDedup l = l :=
  dedupSeen_eq_self l [] h (by simp)

theorem jsSetDedup_dedup_append (A B : List Str) :
    jsSetDedup (jsSetDedup A ++ B) = jsSetDedup (A ++ B) := by
  show dedupSeen [] (dedupSeen [] A ++ B) = dedupSeen [] (A ++ B)
  rw [dedupSeen_append, dedupSeen_append,
    dedupSeen_eq_self (dedupSeen [] A) [] (nodup_dedupSeen A []) (by simp)]
  refine congrArg (dedupSeen [] A ++ ·) (dedupSeen_congr B _ _ fun x => ?_)
  simp [mem_dedupSeen]

/-! ### Lemmas about trimming and the scanner -/

theorem dropWhile_eq_self_of_none (p : Char → Bool) (l : List Char)
    (h : ∀ c ∈ l, p c = false) : l.dropWhile p = l := by
  cases l with
  | nil => rfl
  | cons a l => simp [List.dropWhile_cons, h a (List.mem_cons_self a l)]

theorem jsTrim_eq_self (l : Str) (h : ∀ c ∈ l, isSpaceChar c = false) :
    jsTrim l = l := by
  rw [jsTrim, dropWhile_eq_self_of_none isSpaceChar l h,
    dropWhile_eq_self_of_none isSpaceChar l.reverse
      (fun c hc => h c (List.mem_reverse.mp hc)),
    List.reverse_reverse]

theorem isDelim_of_isSpaceChar (c : Char) (h : isSpaceChar c = true) :
    isDelim c = true := by
  simp [isDelim, h]

theorem scanText_tokens :
    ∀ (text acc : List Char), (∀ c ∈ acc, isDelim c = false) →
      ∀ tok ∈ (scanText acc text).1, tok ≠ [] ∧ ∀ c ∈ tok, isDelim c = false := by
  intro text
  induction text with
  | nil => intro acc _ tok htok; simp [scanText] at htok
  | cons c rest ih =>
    intro acc hacc tok htok
    by_cases hc : isDelim c
    · by_cases ha : acc = []
      · rw [scanText, if_pos hc, if_pos ha] at htok
        exact ih [] (by simp) tok htok
      · rw [scanText, if_pos hc, if_neg ha] at htok
        rcases List.mem_cons.mp htok with rfl | hmem
        · have hnosp : ∀ d ∈ acc.reverse, isSpaceChar d = false := by
            intro d hd
            have hnd := hacc d (List.mem_reverse.mp hd)
            cases hsp : isSpaceChar d with
            | false => rfl
            | true => exact absurd (isDelim_of_isSpaceChar d hsp) (by simp [hnd])
          rw [jsTrim_eq_self acc.reverse hnosp]
          refine ⟨by simpa using ha, fun d hd => hacc d (List.mem_reverse.mp hd)⟩
        · exact ih [] (by simp) tok hmem
    · rw [scanText, if_neg hc] at htok
      refine ih (c :: acc) ?_ tok htok
      intro d hd
      rcases List.mem_cons.mp hd with rfl | hmem
      · exact Bool.not_eq_true _ ▸ (by simpa using hc)
      · exact hacc d hmem

theorem all_not_isDelim_delimsThenPlain (l : Str)
    (h : ∀ c ∈ l, isDelim c = false) : delimsThenPlain l = true := by
  rw [delimsThenPlain, dropWhile_eq_self_of_none isDelim l h]
  simpa [List.all_eq_true] using h

theorem scanText_residual :
    ∀ (text acc : List Char), (∀ c ∈ acc, isDelim c = false) →
      delimsThenPlain (scanText acc text).2 = true := by
  intro text
  induction text with
  | nil =>
    intro acc hacc
    rw [scanText]
    exact all_not_isDelim_delimsThenPlain acc.reverse
      (fun c hc => hacc c (List.mem_reverse.mp hc))
  | cons c rest ih =>
    intro acc hacc
    by_cases hc : isDelim c
    · by_cases ha : acc = []
      · rw [scanText, if_pos hc, if_pos ha]
        have h1 := ih [] (by simp)
        rw [delimsThenPlain] at h1 ⊢
        simpa [List.dropWhile_cons, hc] using h1
      · rw [scanText, if_pos hc, if_neg ha]
        exact ih [] (by simp)
    · rw [scanText, if_neg hc]
      refine ih (c :: acc) ?_
      intro d hd
      rcases List.mem_cons.mp hd with rfl | hmem
      · simpa using hc
      · exact hacc d hmem

/-! ### The accumulated effect of a sequence of text-change events -/

theorem runTexts_tags :
    ∀ (texts : List Str) (t₀ : List Str) (buf : Str) (p : Bool), t₀.Nodup →
      (runTexts ⟨t₀, buf, p⟩ texts).tags = jsSetDedup (t₀ ++ allTokens texts) := by
  intro texts
  induction texts with
  | nil =>
    intro t₀ buf p h
    simp only [runTexts, List.foldl_nil, allTokens, List.map_nil, List.flatten_nil,
      List.append_nil]
    exact (jsSetDedup_eq_self t₀ h).symm
  | cons t rest ih =>
    intro t₀ buf p h
    have hstep : runTexts ⟨t₀, buf, p⟩ (t :: rest)
        = runTexts ⟨jsSetDedup (t₀ ++ (scanText [] t).1), (scanText [] t).2, false⟩ rest := by
      rw [runTexts, List.foldl_cons]
      rfl
    rw [hstep, ih _ _ _ (jsSetDedup_nodup _), jsSetDedup_dedup_append,
      List.append_assoc]
    have htoks : allTokens (t :: rest) = (scanText [] t).1 ++ allTokens rest := by
      simp [allTokens]
    rw [htoks]

/-! ### Lemmas about occurrence counting -/

theorem countOcc_eq_zero_of_not_mem (x : Str) :
    ∀ (l : List Str), x ∉ l → countOcc x l = 0 := by
  intro l
  induction l with
  | nil => intro _; rfl
  | cons y ys ih =>
    intro h
    have hxy : ¬(y = x) := fun e => h (e ▸ List.mem_cons_self y ys)
    have hys : x ∉ ys := fun hm => h (List.mem_cons_of_mem _ hm)
    simp only [countOcc, List.filter_cons, decide_eq_true_iff]
    rw [if_neg (by simpa using hxy)]
    exact ih hys

theorem one_le_countOcc_of_mem (x : Str) :
    ∀ (l : List Str), x ∈ l → 1 ≤ countOcc x l := by
  intro l
  induction l with
  | nil => intro h; exact absurd h (List.not_mem_nil x)
  | cons y ys ih =>
    intro h
    by_cases hxy : y = x
    · simp [countOcc, List.filter_cons, hxy]
    · rcases List.mem_cons.mp h with rfl | hm
      · exact absurd rfl hxy
      · simp only [countOcc, List.filter_cons, decide_eq_true_iff]
        rw [if_neg (by simpa using hxy)]
        exact ih hm

theorem countOcc_eq_one_of_nodup_mem (x : Str) :
    ∀ (l : List Str), l.Nodup → x ∈ l → countOcc x l = 1 := by
  intro l
  induction l with
  | nil => intro _ h; exact absurd h (List.not_mem_nil x)
  | cons y ys ih =>
    intro hnd h
    by_cases hxy : y = x
    · have hx : x ∉ ys := hxy ▸ (List.nodup_cons.mp hnd).1
      simp only [countOcc, List.filter_cons, decide_eq_true_iff]
      rw [if_pos (by simpa using hxy)]
      simpa [countOcc] using countOcc_eq_zero_of_not_mem x ys hx
    · rcases List.mem_cons.mp h with rfl | hm
      · exact absurd rfl hxy
      · simp only [countOcc, List.filter_cons, decide_eq_true_iff]
        rw [if_neg (by simpa using hxy)]
        exact ih (List.nodup_cons.mp hnd).2 hm

/-! ### Claim theorems -/

/-- C2, counterexample: after handleTextChange of the text
alpha-comma-space-beta-semicolon-gamma-space on an empty TagList, the
residual InputBuffer is not empty (the space after the comma is not
part of any regex match and survives), refuting the claimed empty
buffer. -/
theorem handleTextChange_delimiters_cex :
    (handleInputChange ⟨[], [], false⟩ (("alpha, beta;gamma ").data)).1.inputText
      ≠ [] := by
  decide

/-- C2, amended: handleTextChange of the text
alpha-comma-space-beta-semicolon-gamma-space on an empty TagList yields
TagList exactly [alpha, beta, gamma], notifies the host with that list,
and leaves a single space (the one after the comma) as the residual
InputBuffer. -/
theorem handleTextChange_delimiters :
    (handleInputChange ⟨[], [], false⟩ (("alpha, beta;gamma ").data)).1.tags
        = [("alpha").data, ("beta").data, ("gamma").data] ∧
    (handleInputChange ⟨[], [], false⟩ (("alpha, beta;gamma ").data)).1.inputText
        = (" ").data ∧
    (handleInputChange ⟨[], [], false⟩ (("alpha, beta;gamma ").data)).2
        = [("alpha").data, ("beta").data, ("gamma").data] := by
  decide

/-- C7, counterexample: after handleTextChange of the text
alpha-comma-space-b-e on an empty TagList the InputBuffer is not the
two-character text be: the space after the comma survives in front of
it. -/
theorem handleTextChange_partial_cex :
    (handleInputChange ⟨[], [], false⟩ (("alpha, be").data)).1.inputText
      ≠ ("be").data := by
  decide

/-- C7, amended: handleTextChange of the text alpha-comma-space-b-e on
an empty TagList yields TagList exactly [alpha] and InputBuffer
space-b-e (the uncommitted remainder, including the space left over
after the comma). -/
theorem handleTextChange_partial :
    (handleInputChange ⟨[], [], false⟩ (("alpha, be").data)).1.tags
        = [("alpha").data] ∧
    (handleInputChange ⟨[], [], false⟩ (("alpha, be").data)).1.inputText
        = (" be").data ∧
    (handleInputChange ⟨[], [], false⟩ (("alpha, be").data)).2
        = [("alpha").data] := by
  decide

/-- C4, counterexample: handleTextChange of the two-character text
space-a leaves InputBuffer space-a, which contains a delimiter (the
space) followed by non-delimiter text, refuting the claimed invariant. -/
theorem inputBuffer_shape_cex :
    plainThenDelims
      ((handleInputChange ⟨[], [], false⟩ ((" a").data)).1.inputText) = false := by
  decide

/-- C4, amended: after every handleTextChange call, for every input
rawText and every prior state, the resulting InputBuffer consists of a
(possibly empty) run of delimiter characters followed by delimiter-free
text; equivalently, it never contains a non-delimiter character
followed by a delimiter character. -/
theorem inputBuffer_shape (s : TagState) (raw : Str) :
    delimsThenPlain ((handleInputChange s raw).1.inputText) = true := by
  have h : (handleInputChange s raw).1.inputText = (scanText [] raw).2 := rfl
  rw [h]
  exact scanText_residual raw [] (by simp)

/-- C10: a second qualifying Backspace (pending deletion, empty buffer)
on an already empty TagList is safe: the TagList stays empty, the host
is notified with the empty list, and the pending-deletion flag resets
to false. -/
theorem backspace_on_empty_taglist :
    (handleKeyDown ⟨[], [], true⟩ ("Backspace")).1.tags = [] ∧
    (handleKeyDown ⟨[], [], true⟩ ("Backspace")).1.deletionIsPending = false ∧
    (handleKeyDown ⟨[], [], true⟩ ("Backspace")).2 = some [] := by
  decide

/-- C3: evaluation of the code at the failing input.  With an empty
TagList and the single-space buffer, Enter passes the guard (the
untrimmed buffer is non-empty and its trimmed form, the empty string,
is not in the TagList), so the handler appends the empty string as a
tag, clears the buffer and notifies the host with a list holding the
empty string -- a mutation, contradicting the claim that a
whitespace-only buffer is silently ignored. -/
theorem enter_whitespace_adds_empty_tag :
    (handleKeyDown ⟨[], [' '], false⟩ ("Enter")).1.tags = [[]] ∧
    (handleKeyDown ⟨[], [' '], false⟩ ("Enter")).1.inputText = [] ∧
    (handleKeyDown ⟨[], [' '], false⟩ ("Enter")).2 = some [[]] := by
  decide

/-- C9: removing a tag value that is not present leaves the TagList
unchanged, and the host is notified with that unchanged list (the
filter removes nothing). -/
theorem removeTag_absent (s : TagState) (x : Str) (h : x ∉ s.tags) :
    (removeTag s x).1.tags = s.tags ∧ (removeTag s x).2 = s.tags := by
  have hf : s.tags.filter (fun t => decide (t ≠ x)) = s.tags :=
    List.filter_eq_self.mpr (fun a ha => by
      simp only [decide_eq_true_iff]
      exact fun e => h (e ▸ ha))
  exact ⟨by simpa [removeTag] using hf, by simpa [removeTag] using hf⟩

/-- Witness for C9 at a concrete input. -/
theorem removeTag_absent_witness :
    (['b'] : Str) ∉ (TagState.mk [['a']] [] false).tags ∧
    ((removeTag (TagState.mk [['a']] [] false) ['b']).1.tags
        = (TagState.mk [['a']] [] false).tags ∧
     (removeTag (TagState.mk [['a']] [] false) ['b']).2
        = (TagState.mk [['a']] [] false).tags) :=
  ⟨by decide, removeTag_absent (TagState.mk [['a']] [] false) ['b'] (by decide)⟩

/-- C5, counterexample: a non-Backspace keydown does not reset the
pending-deletion flag.  With pending deletion primed, an ArrowLeft
keydown leaves the flag set, and an Enter keydown that adds a tag also
leaves it set, refuting the claim that any non-Backspace keystroke or
tag addition resets it to false. -/
theorem pendingDeletion_not_reset_cex :
    (handleKeyDown ⟨[['a']], [], true⟩ ("ArrowLeft")).1.deletionIsPending ≠ false ∧
    (handleKeyDown ⟨[], ['b'], true⟩ ("Enter")).1.deletionIsPending ≠ false := by
  decide

/-- C5, amended: the keydown handler changes the pending-deletion flag
only in its Backspace branch; every keydown whose key is not Backspace
(including an Enter that adds a tag) leaves the flag exactly as it was.
It is the text-change handler that unconditionally resets the flag to
false. -/
theorem pendingDeletion_update_policy :
    (∀ (s : TagState) (key : String), key ≠ ("Backspace") →
      (handleKeyDown s key).1.deletionIsPending = s.deletionIsPending) ∧
    (∀ (s : TagState) (raw : Str),
      (handleInputChange s raw).1.deletionIsPending = false) := by
  constructor
  · intro s key hkey
    simp only [handleKeyDown]
    by_cases hE : key = ("Enter")
    · simp only [if_pos hE]
      by_cases hc : s.inputText ≠ [] ∧ jsTrim s.inputText ∉ s.tags
      · simp only [if_pos hc]
      · simp only [if_neg hc]
    · have hB : ¬(key = ("Backspace") ∧ s.inputText = []) := fun h => hkey h.1
      simp only [if_neg hE, if_neg hB]
  · intro s raw
    rfl

/-- Witness for C5 (amended) at a concrete input: an ArrowLeft keydown
with pending deletion primed leaves the flag set. -/
theorem pendingDeletion_update_policy_witness :
    (handleKeyDown ⟨[], [], true⟩ ("ArrowLeft")).1.deletionIsPending
      = (TagState.mk [] [] true).deletionIsPending :=
  pendingDeletion_update_policy.1 ⟨[], [], true⟩ ("ArrowLeft") (by decide)

/-- C6: two-phase delete.  From TagList [a, b, c], empty buffer and no
pending deletion: the first Backspace leaves the TagList unchanged,
primes the pending-deletion flag, notifies nobody, and flags the last
tag (index 2) as up for deletion; the second Backspace removes the last
element, leaving [a, b], notifies the host with [a, b], and resets the
flag. -/
theorem two_phase_backspace (a b c : Str) :
    (handleKeyDown ⟨[a, b, c], [], false⟩ ("Backspace")).1.tags = [a, b, c] ∧
    (handleKeyDown ⟨[a, b, c], [], false⟩ ("Backspace")).1.deletionIsPending = true ∧
    (handleKeyDown ⟨[a, b, c], [], false⟩ ("Backspace")).2 = none ∧
    isUpForDeletion (handleKeyDown ⟨[a, b, c], [], false⟩ ("Backspace")).1 2 = true ∧
    (handleKeyDown
      (handleKeyDown ⟨[a, b, c], [], false⟩ ("Backspace")).1 ("Backspace")).1.tags
        = [a, b] ∧
    (handleKeyDown
      (handleKeyDown ⟨[a, b, c], [], false⟩ ("Backspace")).1
        ("Backspace")).1.deletionIsPending = false ∧
    (handleKeyDown
      (handleKeyDown ⟨[a, b, c], [], false⟩ ("Backspace")).1 ("Backspace")).2
        = some [a, b] := by
  have hBE : ¬(("Backspace" : String) = ("Enter")) := by decide
  simp [handleKeyDown, isUpForDeletion, hBE, List.dropLast]

/-! ### Unfolding lemmas for the Enter branch -/

theorem handleKeyDown_enter_add (s : TagState) (h1 : s.inputText ≠ [])
    (h2 : jsTrim s.inputText ∉ s.tags) :
    handleKeyDown s ("Enter")
      = (⟨jsSetDedup (s.tags ++ [jsTrim s.inputText]), [], s.deletionIsPending⟩,
         some (jsSetDedup (s.tags ++ [jsTrim s.inputText]))) := by
  simp [handleKeyDown, h1, h2]

theorem handleKeyDown_enter_noop_mem (s : TagState)
    (h : jsTrim s.inputText ∈ s.tags) :
    handleKeyDown s ("Enter") = (s, none) := by
  simp [handleKeyDown, h]

theorem handleKeyDown_enter_noop_empty (s : TagState)
    (h : s.inputText = []) :
    handleKeyDown s ("Enter") = (s, none) := by
  simp [handleKeyDown, h]

/-- C8, counterexample: with an empty buffer the quantified claim
fails.  Starting from an empty TagList, pressing Enter twice with the
(empty) buffer text leaves zero occurrences of the trimmed text, not
exactly one. -/
theorem enter_twice_cex :
    countOcc (jsTrim [])
      (handleKeyDown ⟨(handleKeyDown ⟨[], [], false⟩ ("Enter")).1.tags, [],
        (handleKeyDown ⟨[], [], false⟩ ("Enter")).1.deletionIsPending⟩
        ("Enter")).1.tags ≠ 1 := by
  decide

/-- C8, amended: for a non-empty buffer text, starting from a TagList
holding at most one occurrence of its trimmed form, pressing Enter,
re-entering the same text, and pressing Enter again leaves exactly one
occurrence of the trimmed text after the first press, and the second
press mutates nothing and does not notify the host. -/
theorem enter_twice_one_occurrence (tags : List Str) (t : Str) (p : Bool)
    (h₁ : t ≠ []) (h₂ : countOcc (jsTrim t) tags ≤ 1) :
    countOcc (jsTrim t) (handleKeyDown ⟨tags, t, p⟩ ("Enter")).1.tags = 1 ∧
    (handleKeyDown ⟨(handleKeyDown ⟨tags, t, p⟩ ("Enter")).1.tags, t,
        (handleKeyDown ⟨tags, t, p⟩ ("Enter")).1.deletionIsPending⟩
        ("Enter")).1.tags
      = (handleKeyDown ⟨tags, t, p⟩ ("Enter")).1.tags ∧
    (handleKeyDown ⟨(handleKeyDown ⟨tags, t, p⟩ ("Enter")).1.tags, t,
        (handleKeyDown ⟨tags, t, p⟩ ("Enter")).1.deletionIsPending⟩
        ("Enter")).2 = none := by
  by_cases hmem : jsTrim t ∈ tags
  · have e1 : handleKeyDown ⟨tags, t, p⟩ ("Enter") = (⟨tags, t, p⟩, none) :=
      handleKeyDown_enter_noop_mem ⟨tags, t, p⟩ hmem
    rw [e1]
    dsimp only
    rw [handleKeyDown_enter_noop_mem ⟨tags, t, p⟩ hmem]
    exact ⟨Nat.le_antisymm h₂ (one_le_countOcc_of_mem _ tags hmem), rfl, rfl⟩
  · have e1 := handleKeyDown_enter_add ⟨tags, t, p⟩ h₁ hmem
    rw [e1]
    dsimp only
    have hmem2 : jsTrim t ∈ jsSetDedup (tags ++ [jsTrim t]) :=
      (mem_jsSetDedup _ _).mpr (List.mem_append.mpr (Or.inr (List.mem_singleton.mpr rfl)))
    rw [handleKeyDown_enter_noop_mem ⟨jsSetDedup (tags ++ [jsTrim t]), t, p⟩ hmem2]
    exact ⟨countOcc_eq_one_of_nodup_mem _ _ (jsSetDedup_nodup _) hmem2, rfl, rfl⟩

/-- Witness for C8 (amended) at a concrete input. -/
theorem enter_twice_one_occurrence_witness :
    (['a'] : Str) ≠ [] ∧ countOcc (jsTrim ['a']) ([] : List Str) ≤ 1 ∧
    (countOcc (jsTrim ['a'])
        (handleKeyDown ⟨[], ['a'], false⟩ ("Enter")).1.tags = 1 ∧
     (handleKeyDown ⟨(handleKeyDown ⟨[], ['a'], false⟩ ("Enter")).1.tags, ['a'],
         (handleKeyDown ⟨[], ['a'], false⟩ ("Enter")).1.deletionIsPending⟩
         ("Enter")).1.tags
       = (handleKeyDown ⟨[], ['a'], false⟩ ("Enter")).1.tags ∧
     (handleKeyDown ⟨(handleKeyDown ⟨[], ['a'], false⟩ ("Enter")).1.tags, ['a'],
         (handleKeyDown ⟨[], ['a'], false⟩ ("Enter")).1.deletionIsPending⟩
         ("Enter")).2 = none) :=
  ⟨by decide, by decide,
    enter_twice_one_occurrence [] ['a'] false (by decide) (by decide)⟩

/-- C1, counterexample: the claim fails for a merely duplicate-free
initial TagList.  The initial list holding the empty string and the
two-character string space-x is duplicate-free, yet after one
handleTextChange of x-comma the TagList is [empty, space-x, x], which
both contains the empty string and contains two elements equal as
trimmed strings (space-x and x): the deduplication of the code compares
raw strings, not trimmed ones. -/
theorem tagList_invariant_cex :
    ([([] : Str), [' ', 'x']].Nodup) ∧
    ¬ (((runTexts ⟨[[], [' ', 'x']], [], false⟩ [['x', ',']]).tags.Pairwise
          (fun x y => jsTrim x ≠ jsTrim y)) ∧
       (∀ x ∈ (runTexts ⟨[[], [' ', 'x']], [], false⟩ [['x', ',']]).tags, x ≠ [])) := by
  refine ⟨by decide, fun h => ?_⟩
  exact h.2 [] (by decide) rfl

/-- C1, amended: for every sequence of handleTextChange calls starting
from an initial TagList whose elements are pairwise distinct, non-empty
and equal to their own trimmed form, the resulting TagList contains no
two elements equal as trimmed strings, contains no empty string, and
equals the first-occurrence deduplication of the initial list followed
by all committed tokens in commit order (first-occurrence insertion
order is preserved). -/
theorem tagList_invariant (texts : List Str) (t₀ : List Str) (buf : Str) (p : Bool)
    (h₁ : t₀.Nodup) (h₂ : ∀ x ∈ t₀, x ≠ [] ∧ jsTrim x = x) :
    ((runTexts ⟨t₀, buf, p⟩ texts).tags.Pairwise
      (fun x y => jsTrim x ≠ jsTrim y)) ∧
    (∀ x ∈ (runTexts ⟨t₀, buf, p⟩ texts).tags, x ≠ []) ∧
    (runTexts ⟨t₀, buf, p⟩ texts).tags = jsSetDedup (t₀ ++ allTokens texts) := by
  have hEq := runTexts_tags texts t₀ buf p h₁
  have hmemAll : ∀ x ∈ (runTexts ⟨t₀, buf, p⟩ texts).tags, x ≠ [] ∧ jsTrim x = x := by
    intro x hx
    rw [hEq] at hx
    rcases List.mem_append.mp ((mem_jsSetDedup x _).mp hx) with h | h
    · exact h₂ x h
    · simp only [allTokens] at h
      rcases List.mem_flatten.mp h with ⟨l, hl, hxl⟩
      rcases List.mem_map.mp hl with ⟨t, _, rfl⟩
      have htok := scanText_tokens t [] (by simp) x hxl
      refine ⟨htok.1, jsTrim_eq_self x ?_⟩
      intro c hc
      cases hsp : isSpaceChar c with
      | false => rfl
      | true =>
        exact absurd (isDelim_of_isSpaceChar c hsp) (by simp [htok.2 c hc])
  have hnodup : (runTexts ⟨t₀, buf, p⟩ texts).tags.Nodup := by
    rw [hEq]; exact jsSetDedup_nodup _
  refine ⟨?_, fun x hx => (hmemAll x hx).1, hEq⟩
  refine List.Pairwise.imp_of_mem ?_ hnodup
  intro a b ha hb hne heq
  refine hne ?_
  calc a = jsTrim a := ((hmemAll a ha).2).symm
    _ = jsTrim b := heq
    _ = b := (hmemAll b hb).2

/-- Witness for C1 (amended) at a concrete input. -/
theorem tagList_invariant_witness :
    (([['a']] : List Str).Nodup) ∧
    (∀ x ∈ ([['a']] : List Str), x ≠ [] ∧ jsTrim x = x) ∧
    (((runTexts ⟨[['a']], [], false⟩ [['b', ',']]).tags.Pairwise
        (fun x y => jsTrim x ≠ jsTrim y)) ∧
     (∀ x ∈ (runTexts ⟨[['a']], [], false⟩ [['b', ',']]).tags, x ≠ []) ∧
     (runTexts ⟨[['a']], [], false⟩ [['b', ',']]).tags
       = jsSetDedup ([['a']] ++ allTokens [['b', ',']])) :=
  ⟨by decide, by decide,
    tagList_invariant [['b', ',']] [['a']] [] false (by decide) (by decide)⟩
